import Mathlib

/-!
Shallow embedding of the pyrdle word-guessing simulator (files
`src/pyrdle/wordle.py` and `lang.py`), with theorems checking the
natural-language specification against the code.

Words are lists of characters.  Python sets and dicts are embedded as
lists carrying their (arbitrary but fixed) iteration order; all places
where the original iterates a set are only used here in ways that do not
depend on that order, except where the order itself is under scrutiny
(the greedy guesser iterates `Configuration.allowed`, a Python `set`,
whose iteration order is *not* sorted).
-/

/-- A word is a list of characters (Python `str`). -/
abbrev Word := List Char

/-- Per-character feedback, `Call = Literal["correct", "somewhere", "incorrect"]`. -/
inductive Call where
  | correct
  | somewhere
  | incorrect
deriving DecidableEq, Repr

/-- `Configuration` from `wordle.py`: word length, number of guesses
(`height`), and the allowed vocabulary.  `allowed` is a Python `set[str]`;
it is embedded as the list of its elements in iteration order. -/
structure Configuration where
  length : Nat
  height : Nat
  allowed : List Word
deriving DecidableEq, Repr

/-- `Game` from `wordle.py`: a configuration, the secret word, and the
accumulated guesses and feedback rows. -/
structure Game where
  configuration : Configuration
  word : Word
  guesses : List Word
  calls : List (List Call)
deriving DecidableEq, Repr

/-- `Game.state`: `False` (lost) once `len(guesses) >= height`, else `True`
(won) if there is a guess and the last guess equals the secret, else
`None` (still playing). -/
def Game.state (g : Game) : Option Bool :=
  if g.configuration.height ≤ g.guesses.length then some false
  else if 0 < g.guesses.length ∧ g.guesses.getLast? = some g.word then some true
  else none

/-- `Game._call`: classify one character of a guess against the secret
(`secret` is `self.word`): `correct` on positional match, else `somewhere`
if the guessed character occurs anywhere in the secret, else `incorrect`. -/
def call_of (secret : Word) (actual given : Char) : Call :=
  if actual = given then .correct
  else if given ∈ secret then .somewhere
  else .incorrect

/-- The feedback row appended by `Game.append_guess`:
`tuple(self._call(a, g) for a, g in zip(self.word, word))`. -/
def compute_calls (secret word : Word) : List Call :=
  (secret.zip word).map fun p => call_of secret p.1 p.2

/-- The two exceptions `Game.append_guess` can raise: `ValueError` for a
wrong-length word, `KeyError` for a word outside the vocabulary. -/
inductive GuessError where
  | wrongLength
  | notFound
deriving DecidableEq, Repr

/-- `Game.append_guess`: reject a word of the wrong length, then a word not
in the vocabulary; otherwise append the guess and its feedback row. -/
def Game.append_guess (g : Game) (word : Word) : Except GuessError Game :=
  if g.configuration.length ≠ word.length then .error .wrongLength
  else if word ∉ g.configuration.allowed then .error .notFound
  else .ok { g with
    guesses := g.guesses ++ [word]
    calls := g.calls ++ [compute_calls g.word word] }

/-- The four statements of the body of `Game.append_guess`, in source
order: the two checks, then the two mutations. -/
inductive GStep where
  | checkLength
  | checkMember
  | pushGuess
  | pushCall
deriving DecidableEq, Repr

/-- Execute one statement of `Game.append_guess` on the game object. -/
def run_gstep (word : Word) (g : Game) : GStep → Except GuessError Game
  | .checkLength =>
      if g.configuration.length ≠ word.length then .error .wrongLength else .ok g
  | .checkMember =>
      if word ∉ g.configuration.allowed then .error .notFound else .ok g
  | .pushGuess => .ok { g with guesses := g.guesses ++ [word] }
  | .pushCall => .ok { g with calls := g.calls ++ [compute_calls g.word word] }

/-- Run a statement list in order; an exception freezes the object in its
current (possibly partially mutated) state. -/
def run_gsteps (word : Word) (g : Game) : List GStep → Game × Option GuessError
  | [] => (g, none)
  | s :: rest =>
      match run_gstep word g s with
      | .error e => (g, some e)
      | .ok g' => run_gsteps word g' rest

/-- The statement order of the body of `Game.append_guess`. -/
def append_guess_steps : List GStep :=
  [.checkLength, .checkMember, .pushGuess, .pushCall]

/-- `Game.append_guess` as the statement-by-statement execution of its
body, exposing the state the object is left in when an exception occurs. -/
def append_guess_impl (g : Game) (word : Word) : Game × Option GuessError :=
  run_gsteps word g append_guess_steps

/-- Python dict assignment `d[i] = x`: replace the binding if the key is
present, otherwise add it at the end. -/
def dict_insert (d : List (Nat × Char)) (i : Nat) (x : Char) : List (Nat × Char) :=
  if d.any fun p => p.1 = i then d.map fun p => if p.1 = i then (i, x) else p
  else d ++ [(i, x)]

/-- Python set `add`: append the element unless it is already present. -/
def set_add (s : List Char) (c : Char) : List Char :=
  if c ∈ s then s else s ++ [c]

/-- The inner loop of `get_constraints`:
`for i, c, x in zip(itt.count(), call, guess)`, updating
`(positions, appears, no_appears)`.  On `correct` the position is recorded
and the character added to `appears`; on `somewhere` only `appears`; on
`incorrect` the character is added to `no_appears` unconditionally. -/
def process_row (i : Nat) :
    List Call → Word → List (Nat × Char) × List Char × List Char →
      List (Nat × Char) × List Char × List Char
  | c :: cs, x :: xs, (pos, ap, nap) =>
      match c with
      | .correct => process_row (i + 1) cs xs (dict_insert pos i x, set_add ap x, nap)
      | .somewhere => process_row (i + 1) cs xs (pos, set_add ap x, nap)
      | .incorrect => process_row (i + 1) cs xs (pos, ap, set_add nap x)
  | _, _, st => st

/-- `get_constraints(guesses, calls)` from `wordle.py`: fold the whole
history into `(positions, appears, no_appears)`. -/
def get_constraints (guesses : List Word) (calls : List (List Call)) :
    List (Nat × Char) × List Char × List Char :=
  (calls.zip guesses).foldl (fun st p => process_row 0 p.1 p.2 st) ([], [], [])

/-- `valid_under_constraints(word, positions, appears, no_appears)`:
every recorded position matches, every `appears` character occurs in the
word, and no `no_appears` character does. -/
def valid_under_constraints (word : Word) (pos : List (Nat × Char))
    (ap nap : List Char) : Bool :=
  pos.all (fun p => word.get? p.1 == some p.2) &&
    ap.all (fun c => word.contains c) &&
    nap.all (fun c => !word.contains c)

/-- `GreedyInitialGuesser.guess_late_game`: derive the constraints from
the history and return the first word of `configuration.allowed` (a
Python `set`, iterated in its stored order) that has not been guessed and
satisfies them; `none` models the `ValueError` raised when no word
remains. -/
def guess_late_game (cfg : Configuration) (guesses : List Word)
    (calls : List (List Call)) : Option Word :=
  let st := get_constraints guesses calls
  cfg.allowed.find? fun word =>
    !guesses.contains word && valid_under_constraints word st.1 st.2.1 st.2.2

/-- Lexicographic comparison of words (true when `a ≤ b`). -/
def lexLe : Word → Word → Bool
  | [], _ => true
  | _ :: _, [] => false
  | a :: as, b :: bs => if a = b then lexLe as bs else decide (a < b)

/-- Modelled from the spec's words, for comparison with
`guess_late_game`: "the first word in sorted order satisfying
constraints", i.e. the lexicographically least word of the vocabulary
that has not been guessed and satisfies the derived constraints. -/
def sorted_greedy_spec (cfg : Configuration) (guesses : List Word)
    (calls : List (List Call)) : Option Word :=
  let st := get_constraints guesses calls
  let sat := cfg.allowed.filter fun word =>
    !guesses.contains word && valid_under_constraints word st.1 st.2.1 st.2.2
  sat.foldl (fun acc w =>
    match acc with
    | none => some w
    | some v => if lexLe v w then some v else some w) none

/-- The largest multiplicity in a character list:
`(Counter(left) + Counter(right)).most_common(1)[0][1]` applied to the
concatenation. -/
def maxCount (xs : List Char) : Nat :=
  (xs.map fun c => xs.count c).foldl max 0

/-- `_exclusive(left, right)` from `lang.py`: the two strings share no
characters and have no internal duplicates, i.e. the maximum character
multiplicity of their concatenation is exactly one. -/
def exclusiveWords (left right : Word) : Bool :=
  maxCount (left ++ right) == 1

/-- `Language.get_index`: for every pair `(left, right)` of distinct words
with `left` before `right` in the list (`itertools.combinations`), record
`right` under the key `(left,)` when the pair is exclusive.  The
`defaultdict` is embedded as the list of its (key, values) groups in
insertion order; empty groups are never created. -/
def get_index : List Word → List (List Word × List Word)
  | [] => []
  | w :: rest =>
      let vs := rest.filter fun r => exclusiveWords w r
      (if vs.isEmpty then [] else [([w], vs)]) ++ get_index rest

/-- The body of `Language.deepen_index` for one `(key, values)` group: for
every pair `(left, right)` from `itertools.combinations(values, 2)`,
record `right` under the key `(*key, left)` when the pair is exclusive. -/
def extend_group (key : List Word) : List Word → List (List Word × List Word)
  | [] => []
  | v :: rest =>
      let vs := rest.filter fun r => exclusiveWords v r
      (if vs.isEmpty then [] else [(key ++ [v], vs)]) ++ extend_group key rest

/-- `Language.deepen_index`: extend every tuple of the index by one word.
Distinct groups always produce distinct keys, so keeping the groups flat
instead of re-merging them into a dict is faithful. -/
def deepen_index (index : List (List Word × List Word)) :
    List (List Word × List Word) :=
  index.flatMap fun kv => extend_group kv.1 kv.2

/-- `Language.iter_k_tuples`: singletons for `k = 1`; otherwise build the
pair index, deepen it `k - 2` times, and unwind every (key, value) pair
into a flat tuple `(*key, value)`. -/
def iter_k_tuples (words_list : List Word) (k : Nat) : List (List Word) :=
  if k = 1 then words_list.map fun w => [w]
  else
    let index := Nat.iterate deepen_index (k - 2) (get_index words_list)
    index.flatMap fun kv => kv.2.map fun v => kv.1 ++ [v]

/-- `Language` from `lang.py`: the word set of one (length, language)
pair, embedded as the list of its elements (a Python `set`, so the list
is duplicate-free). -/
structure Lang where
  length : Nat
  words : List Word
deriving DecidableEq, Repr

/-- `Language.frequency`: `Counter(char for word in self.words for char in
word)`, the number of occurrences of a character across all words. -/
def Lang.frequency (lang : Lang) (c : Char) : Nat :=
  lang.words.flatten.count c

/-- `total = sum(self.frequency.values())`: the frequencies summed over
the set of characters that occur. -/
def Lang.total (lang : Lang) : Nat :=
  ∑ c ∈ lang.words.flatten.toFinset, lang.frequency c

/-- `Language.frequency_norm`: each count divided by the total count
(Python float division, idealised as exact rational division; a missing
`Counter` key reads as 0). -/
def Lang.frequency_norm (lang : Lang) (c : Char) : ℚ :=
  (lang.frequency c : ℚ) / (lang.total : ℚ)

/-- `Language.score_words`: the normalized frequencies summed over the set
`{char for word in words for char in word}` of distinct characters. -/
def Lang.score_words (lang : Lang) (words : List Word) : ℚ :=
  ∑ c ∈ words.flatten.toFinset, lang.frequency_norm c

/-- A player, `Player.guess(guesses, calls)`.  The players of `wordle.py`
are deterministic functions of the history (for `InitialGuesser` the
internal counter `n` always equals `len(guesses)` when invoked by
`Game.play`). -/
abbrev Player := List Word → List (List Call) → Word

/-- `Game.play`, the loop `while self.state() is None: guess; append`,
with an explicit fuel bound on the number of iterations.  The loop of the
source is unbounded; `play_fuel_exits` below proves that `height` fuel
always suffices, so with that fuel this is the exact loop. -/
def play_fuel : Nat → Player → Game → Except GuessError Game
  | 0, _, g => .ok g
  | fuel + 1, p, g =>
      if g.state = none then
        match g.append_guess (p g.guesses g.calls) with
        | .error e => .error e
        | .ok g' => play_fuel fuel p g'
      else .ok g

/-- A key of the outcome `Counter` of `Controller.play_all`: either a
guess count (`int`) or the string `"Failure"`. -/
inductive CKey where
  | num : Nat → CKey
  | failure
deriving DecidableEq, Repr

/-- `counter[key] += 1` on a `Counter` embedded as an association list in
insertion order (keys are unique). -/
def counter_incr : List (CKey × Nat) → CKey → List (CKey × Nat)
  | [], k => [(k, 1)]
  | p :: rest, k => if p.1 = k then (p.1, p.2 + 1) :: rest else p :: counter_incr rest k

/-- The tally `Controller.play_all` makes for one finished game:
`counter[len(game.guesses)] += 1` when `game.state()` is truthy, else
`counter["Failure"] += 1`. -/
def tally_key (g : Game) : CKey :=
  if g.state = some true then .num g.guesses.length else .failure

/-- The loop of `Controller.play_all` over the words still to play, with
the accumulated counter; an exception from a game aborts the sweep. -/
def play_all_go (cfg : Configuration) (p : Player) :
    List Word → List (CKey × Nat) → Except GuessError (List (CKey × Nat))
  | [], ctr => .ok ctr
  | w :: ws, ctr =>
      match play_fuel cfg.height p ⟨cfg, w, [], []⟩ with
      | .error e => .error e
      | .ok g => play_all_go cfg p ws (counter_incr ctr (tally_key g))

/-- `Controller.play_all`: one fresh game per vocabulary word, tallied
into a `Counter`. -/
def play_all (cfg : Configuration) (p : Player) :
    Except GuessError (List (CKey × Nat)) :=
  play_all_go cfg p cfg.allowed []

/-- `key * value` for an integer counter key (`isinstance(key, int)`),
0 for the `"Failure"` key. -/
def ckey_val : CKey → Nat → ℚ
  | .num n, v => ((n * v : Nat) : ℚ)
  | .failure, _ => 0

/-- `Configuration.speed(counter)`:
`sum(key * value for key, value in counter.items() if isinstance(key, int))
/ len(self.allowed)` (float division idealised as exact rational
division). -/
def Configuration.speed (cfg : Configuration) (ctr : List (CKey × Nat)) : ℚ :=
  (ctr.map fun p => ckey_val p.1 p.2).sum / (cfg.allowed.length : ℚ)

/-- The guess count a single word contributes to the numerator of
`speed`: the number of guesses of its game when the game is tallied as
won, and 0 when it is tallied as `"Failure"`. -/
def game_score (cfg : Configuration) (p : Player) (w : Word) : Nat :=
  match play_fuel cfg.height p ⟨cfg, w, [], []⟩ with
  | .error _ => 0
  | .ok g => if g.state = some true then g.guesses.length else 0

/-- The weighted sum over the integer keys of a counter, the numerator of
`speed`. -/
def num_sum (ctr : List (CKey × Nat)) : ℚ :=
  (ctr.map fun p => ckey_val p.1 p.2).sum

/-- The total number of tallies in a counter. -/
def tot_sum (ctr : List (CKey × Nat)) : Nat :=
  (ctr.map fun p => p.2).sum

/-- A two-word vocabulary of one-letter words; height 2. -/
def cfg12 : Configuration := ⟨1, 2, [['a'], ['b']]⟩

/-- A fresh game with secret `"a"` in `cfg12`. -/
def gameC1_0 : Game := ⟨cfg12, ['a'], [], []⟩

/-- `gameC1_0` after guessing `"b"`. -/
def gameC1_1 : Game := ⟨cfg12, ['a'], [['b']], [[Call.incorrect]]⟩

/-- `gameC1_1` after guessing `"a"`: the second (last allowed) guess equals
the secret. -/
def gameC1_2 : Game := ⟨cfg12, ['a'], [['b'], ['a']], [[Call.incorrect], [Call.correct]]⟩

/-- Claim C1: `state()` on a game whose final allowed guess equals the
secret.  The code checks `len(guesses) >= height` first, so this reachable
game — the height-th guess equals the secret — is reported Lost
(`some false`), not Won, contradicting the claim that Won takes precedence
on the last allowed guess. -/
theorem c1_state_lost_on_winning_final_guess :
    gameC1_0.append_guess ['b'] = .ok gameC1_1 ∧
    gameC1_1.append_guess ['a'] = .ok gameC1_2 ∧
    gameC1_2.guesses.getLast? = some gameC1_2.word ∧
    gameC1_2.guesses.length = gameC1_2.configuration.height ∧
    gameC1_2.state = some false := by
  refine ⟨?_, ?_, rfl, rfl, rfl⟩ <;> rfl

/-- Claim C7: `append_guess` fails with the length error exactly when the
word length differs from the configured length; otherwise it fails with
the not-in-vocabulary error exactly when the word is outside the allowed
set; when both checks pass it succeeds. -/
theorem c7_append_guess_error_cases (g : Game) (w : Word) :
    (g.append_guess w = .error .wrongLength ↔ w.length ≠ g.configuration.length) ∧
    (g.append_guess w = .error .notFound ↔
      w.length = g.configuration.length ∧ w ∉ g.configuration.allowed) ∧
    ((∃ g', g.append_guess w = .ok g') ↔
      w.length = g.configuration.length ∧ w ∈ g.configuration.allowed) := by
  refine ⟨?_, ?_, ?_⟩ <;> simp only [Game.append_guess] <;>
    split_ifs with h1 h2 <;> simp_all <;> omega

/-- Claim C10: executing the body of `append_guess` statement by
statement, if an exception is raised then the game object is left exactly
as it was: guesses, calls, secret word, and hence `state()` are unchanged,
because both validation checks precede both mutations. -/
theorem c10_append_guess_atomic (g : Game) (w : Word) (e : GuessError)
    (h : (append_guess_impl g w).2 = some e) :
    (append_guess_impl g w).1.guesses = g.guesses ∧
    (append_guess_impl g w).1.calls = g.calls ∧
    (append_guess_impl g w).1.word = g.word ∧
    (append_guess_impl g w).1.state = g.state ∧
    (append_guess_impl g w).1 = g := by
  have hg : (append_guess_impl g w).1 = g := by
    by_cases h1 : g.configuration.length ≠ w.length
    · simp [append_guess_impl, append_guess_steps, run_gsteps, run_gstep, h1]
    · by_cases h2 : w ∉ g.configuration.allowed
      · simp [append_guess_impl, append_guess_steps, run_gsteps, run_gstep, h1, h2]
      · exfalso
        simp [append_guess_impl, append_guess_steps, run_gsteps, run_gstep, h1, h2] at h
  exact ⟨by rw [hg], by rw [hg], by rw [hg], by rw [hg], hg⟩

/-- Witness for C10 at a concrete input: a wrong-length guess leaves the
game untouched. -/
theorem c10_append_guess_atomic_witness :
    (append_guess_impl gameC1_0 ['a', 'b']).2 = some GuessError.wrongLength ∧
    ((append_guess_impl gameC1_0 ['a', 'b']).1.guesses = gameC1_0.guesses ∧
      (append_guess_impl gameC1_0 ['a', 'b']).1.calls = gameC1_0.calls ∧
      (append_guess_impl gameC1_0 ['a', 'b']).1.word = gameC1_0.word ∧
      (append_guess_impl gameC1_0 ['a', 'b']).1.state = gameC1_0.state ∧
      (append_guess_impl gameC1_0 ['a', 'b']).1 = gameC1_0) :=
  ⟨rfl, c10_append_guess_atomic gameC1_0 ['a', 'b'] GuessError.wrongLength rfl⟩

/-- The per-position classification of a mapped zip, keeping the full
secret fixed while recursing along a prefix pair. -/
theorem map_call_of_get? (s : Word) :
    ∀ (sp wp : Word) (i : Nat) (a b : Char),
      sp.get? i = some a → wp.get? i = some b →
      ((sp.zip wp).map fun p => call_of s p.1 p.2).get? i = some (call_of s a b) := by
  intro sp
  induction sp with
  | nil => intro wp i a b ha; simp at ha
  | cons hd tl ih =>
    intro wp i a b ha hb
    cases wp with
    | nil => simp at hb
    | cons hd2 tl2 =>
      cases i with
      | zero =>
        simp only [List.get?] at ha hb
        cases ha; cases hb
        rfl
      | succ j =>
        simp only [List.get?] at ha hb ⊢
        simpa using ih tl2 j a b ha hb

/-- Counting `correct` calls over a list of character pairs. -/
theorem count_correct_eq_agreements (s : Word) :
    ∀ (l : List (Char × Char)),
      ((l.map fun p => call_of s p.1 p.2).count Call.correct) =
        (l.filter fun p => p.1 == p.2).length := by
  intro l
  induction l with
  | nil => rfl
  | cons p rest ih =>
    rw [List.map_cons, List.filter_cons]
    by_cases hp : p.1 = p.2
    · have hc : call_of s p.1 p.2 = Call.correct := by simp [call_of, hp]
      rw [hp] at hc
      simp [List.count_cons, hc, hp, ih]
    · have hc : call_of s p.1 p.2 ≠ Call.correct := by
        simp only [call_of, if_neg hp]
        split_ifs <;> simp
      simp [List.count_cons, hc, hp, ih]

/-- Claim C4: the feedback row classifies position `i` as `correct` iff
the secret and guess agree there, else `somewhere` iff the guessed
character occurs anywhere in the secret, else `incorrect`; the number of
`correct` calls equals the number of agreeing positions. -/
theorem c4_compute_calls_classification (s w : Word) (h : s.length = w.length) :
    (compute_calls s w).length = w.length ∧
    (∀ (i : Nat) (a b : Char), s.get? i = some a → w.get? i = some b →
      (compute_calls s w).get? i =
        some (if a = b then Call.correct
          else if b ∈ s then Call.somewhere else Call.incorrect)) ∧
    (compute_calls s w).count Call.correct =
      ((s.zip w).filter fun p => p.1 == p.2).length := by
  refine ⟨?_, ?_, ?_⟩
  · simp [compute_calls, List.length_zip, h]
  · intro i a b ha hb
    have := map_call_of_get? s s w i a b ha hb
    simpa [compute_calls, call_of] using this
  · exact count_correct_eq_agreements s (s.zip w)

/-- Witness for C4 at a concrete input: secret `"ab"`, guess `"ba"`. -/
theorem c4_compute_calls_classification_witness :
    (['a','b'] : Word).length = (['b','a'] : Word).length ∧
    ((compute_calls ['a','b'] ['b','a']).length = (['b','a'] : Word).length ∧
      (∀ (i : Nat) (a b : Char),
        (['a','b'] : Word).get? i = some a → (['b','a'] : Word).get? i = some b →
        (compute_calls ['a','b'] ['b','a']).get? i =
          some (if a = b then Call.correct
            else if b ∈ (['a','b'] : Word) then Call.somewhere else Call.incorrect)) ∧
      (compute_calls ['a','b'] ['b','a']).count Call.correct =
        (((['a','b'] : Word).zip (['b','a'] : Word)).filter fun p => p.1 == p.2).length) :=
  ⟨rfl, c4_compute_calls_classification ['a','b'] ['b','a'] rfl⟩

/-- `find?` returns the first element satisfying the test: the list splits
at the result, with everything before it failing the test. -/
theorem find?_first {α : Type} (p : α → Bool) :
    ∀ (l : List α) (b : α), l.find? p = some b →
      ∃ pre post, l = pre ++ b :: post ∧ p b = true ∧ ∀ a ∈ pre, p a = false := by
  intro l
  induction l with
  | nil => intro b h; simp at h
  | cons hd tl ih =>
    intro b h
    by_cases hp : p hd
    · rw [List.find?_cons_of_pos _ hp] at h
      cases h
      exact ⟨[], tl, rfl, hp, by simp⟩
    · rw [List.find?_cons_of_neg _ (by simpa using hp)] at h
      obtain ⟨pre, post, heq, hb, hpre⟩ := ih b h
      refine ⟨hd :: pre, post, by simp [heq], hb, ?_⟩
      intro a ha
      rcases List.mem_cons.mp ha with rfl | ha
      · simpa using hp
      · exact hpre a ha

/-- Claim C2 (amended): a successful late-game greedy guess is the *first
word in the vocabulary's iteration order* (not sorted order) that has not
been guessed and satisfies the derived constraints, and the result is
determined by the history and that iteration order. -/
theorem c2_greedy_first_in_iteration_order (cfg cfg2 : Configuration)
    (guesses : List Word) (calls : List (List Call)) (w : Word)
    (hsame : cfg2.allowed = cfg.allowed)
    (h : guess_late_game cfg guesses calls = some w) :
    (∃ pre post, cfg.allowed = pre ++ w :: post ∧
      (!guesses.contains w &&
        valid_under_constraints w (get_constraints guesses calls).1
          (get_constraints guesses calls).2.1 (get_constraints guesses calls).2.2) = true ∧
      ∀ v ∈ pre,
        (!guesses.contains v &&
          valid_under_constraints v (get_constraints guesses calls).1
            (get_constraints guesses calls).2.1 (get_constraints guesses calls).2.2) = false) ∧
    guess_late_game cfg2 guesses calls = some w := by
  refine ⟨find?_first _ _ _ h, ?_⟩
  simp only [guess_late_game] at h ⊢
  rw [hsame]
  exact h

/-- Witness for C2 at a concrete input. -/
theorem c2_greedy_first_in_iteration_order_witness :
    (⟨2, 6, [['b','a'], ['a','b']]⟩ : Configuration).allowed =
      (⟨2, 6, [['b','a'], ['a','b']]⟩ : Configuration).allowed ∧
    guess_late_game ⟨2, 6, [['b','a'], ['a','b']]⟩ [] [] = some ['b','a'] ∧
    ((∃ pre post,
      (⟨2, 6, [['b','a'], ['a','b']]⟩ : Configuration).allowed = pre ++ ['b','a'] :: post ∧
      (!([] : List Word).contains ['b','a'] &&
        valid_under_constraints ['b','a'] (get_constraints [] []).1
          (get_constraints [] []).2.1 (get_constraints [] []).2.2) = true ∧
      ∀ v ∈ pre,
        (!([] : List Word).contains v &&
          valid_under_constraints v (get_constraints [] []).1
            (get_constraints [] []).2.1 (get_constraints [] []).2.2) = false) ∧
      guess_late_game ⟨2, 6, [['b','a'], ['a','b']]⟩ [] [] = some ['b','a']) :=
  ⟨rfl, by decide,
    c2_greedy_first_in_iteration_order _ _ [] [] ['b','a'] rfl (by decide)⟩

/-- Counterexample to C2 as stated: with vocabulary iteration order
`["ba", "ab"]` and empty history, the greedy guess is `"ba"`, but the
lexicographically first satisfying word is `"ab"`. -/
theorem c2_not_lexicographic :
    guess_late_game ⟨2, 6, [['b','a'], ['a','b']]⟩ [] [] = some ['b','a'] ∧
    sorted_greedy_spec ⟨2, 6, [['b','a'], ['a','b']]⟩ [] [] = some ['a','b'] ∧
    guess_late_game ⟨2, 6, [['b','a'], ['a','b']]⟩ [] [] ≠
      sorted_greedy_spec ⟨2, 6, [['b','a'], ['a','b']]⟩ [] [] := by
  refine ⟨by decide, by decide, by decide⟩

/-- The property each (call, character) pair of a feedback row has when
the feedback was produced against the secret. -/
def RowOK (secret : Word) : List Call → List Char → Prop
  | c :: cs, x :: xs =>
      ((c = Call.correct ∨ c = Call.somewhere) → x ∈ secret) ∧
      (c = Call.incorrect → x ∉ secret) ∧ RowOK secret cs xs
  | _, _ => True

/-- The invariant of the constraint fold: every `appears` character occurs
in the secret, no `no_appears` character does. -/
def ConsOK (secret : Word) (st : List (Nat × Char) × List Char × List Char) : Prop :=
  (∀ c ∈ st.2.1, c ∈ secret) ∧ (∀ c ∈ st.2.2, c ∉ secret)

theorem mem_set_add {s : List Char} {x c : Char} :
    c ∈ set_add s x ↔ c ∈ s ∨ c = x := by
  unfold set_add
  split_ifs with hx
  · constructor
    · exact fun h => Or.inl h
    · rintro (h | rfl) <;> assumption
  · simp

theorem process_row_ok (secret : Word) :
    ∀ (cs : List Call) (xs : List Char) (i : Nat)
      (st : List (Nat × Char) × List Char × List Char),
      RowOK secret cs xs → ConsOK secret st →
      ConsOK secret (process_row i cs xs st) := by
  intro cs
  induction cs with
  | nil => intro xs i st _ hst; cases xs <;> exact hst
  | cons c cs ih =>
    intro xs i st hrow hst
    cases xs with
    | nil => exact hst
    | cons x xs =>
      obtain ⟨hin, hout, hrest⟩ := hrow
      obtain ⟨hap, hnap⟩ := hst
      cases c with
      | correct =>
        refine ih xs (i + 1) _ hrest ⟨?_, hnap⟩
        intro d hd
        rcases mem_set_add.mp hd with hd | rfl
        · exact hap d hd
        · exact hin (Or.inl rfl)
      | somewhere =>
        refine ih xs (i + 1) _ hrest ⟨?_, hnap⟩
        intro d hd
        rcases mem_set_add.mp hd with hd | rfl
        · exact hap d hd
        · exact hin (Or.inr rfl)
      | incorrect =>
        refine ih xs (i + 1) _ hrest ⟨hap, ?_⟩
        intro d hd
        rcases mem_set_add.mp hd with hd | rfl
        · exact hnap d hd
        · exact hout rfl

theorem row_ok_of_compute (secret : Word) :
    ∀ (sp gp : Word), (∀ a ∈ sp, a ∈ secret) →
      RowOK secret ((sp.zip gp).map fun p => call_of secret p.1 p.2) gp := by
  intro sp
  induction sp with
  | nil => intro gp _; cases gp <;> trivial
  | cons a sp ih =>
    intro gp hsub
    cases gp with
    | nil => trivial
    | cons x gp =>
      refine ⟨?_, ?_, ih gp fun b hb => hsub b (List.mem_cons_of_mem a hb)⟩
      · intro hc
        simp only [call_of] at hc
        split_ifs at hc with h1 h2
        · exact h1 ▸ hsub a (List.mem_cons_self a sp)
        · exact h2
        · rcases hc with hc | hc <;> simp at hc
      · intro hc
        simp only [call_of] at hc
        split_ifs at hc with h1 h2
        exact h2

theorem get_constraints_ok (secret : Word) (guesses : List Word) :
    ConsOK secret (get_constraints guesses (guesses.map (compute_calls secret))) := by
  unfold get_constraints
  suffices h : ∀ (gs : List Word) (st : List (Nat × Char) × List Char × List Char),
      ConsOK secret st →
      ConsOK secret (((gs.map (compute_calls secret)).zip gs).foldl
        (fun st p => process_row 0 p.1 p.2 st) st) by
    exact h guesses ([], [], []) ⟨by simp, by simp⟩
  intro gs
  induction gs with
  | nil => intro st hst; exact hst
  | cons g gs ih =>
    intro st hst
    simp only [List.map_cons, List.zip_cons_cons, List.foldl_cons]
    exact ih _ (process_row_ok secret _ _ _ _
      (row_ok_of_compute secret secret g fun a ha => ha) hst)

/-- Claim C3 (amended): for a history whose feedback rows were produced by
classifying each guess against one fixed secret — as `Game.append_guess`
produces them — the derived `appears` and `no_appears` sets are disjoint.
(The code itself adds to `no_appears` unconditionally; disjointness comes
from the feedback's consistency with a single secret, not from a guard.) -/
theorem c3_constraints_disjoint_for_game_feedback (secret : Word)
    (guesses : List Word) (c : Char)
    (hc : c ∈ (get_constraints guesses (guesses.map (compute_calls secret))).2.1) :
    c ∉ (get_constraints guesses (guesses.map (compute_calls secret))).2.2 := by
  obtain ⟨hap, hnap⟩ := get_constraints_ok secret guesses
  intro hmem
  exact hnap c hmem (hap c hc)

/-- Witness for C3 at a concrete input: secret `"ab"`, one guess `"ac"`. -/
theorem c3_constraints_disjoint_for_game_feedback_witness :
    'a' ∈ (get_constraints [['a','c']]
        ([['a','c']].map (compute_calls ['a','b']))).2.1 ∧
    'a' ∉ (get_constraints [['a','c']]
        ([['a','c']].map (compute_calls ['a','b']))).2.2 :=
  ⟨by decide, c3_constraints_disjoint_for_game_feedback ['a','b'] [['a','c']] 'a' (by decide)⟩

/-- Counterexample to C3 as stated: over an arbitrary guess/feedback
history (one not produced against a single secret) the code records the
character in both sets — `no_appears` receives it although it is already
in `appears`, so the sets are not disjoint. -/
theorem c3_sets_can_intersect :
    'a' ∈ (get_constraints [['a'], ['a']] [[Call.correct], [Call.incorrect]]).2.1 ∧
    'a' ∈ (get_constraints [['a'], ['a']] [[Call.correct], [Call.incorrect]]).2.2 := by
  refine ⟨by decide, by decide⟩

theorem base_le_foldl_max : ∀ (l : List Nat) (b : Nat), b ≤ l.foldl max b := by
  intro l
  induction l with
  | nil => intro b; exact Nat.le_refl b
  | cons hd tl ih =>
    intro b
    exact Nat.le_trans (Nat.le_max_left b hd) (ih (max b hd))

theorem mem_le_foldl_max : ∀ (l : List Nat) (b a : Nat), a ∈ l → a ≤ l.foldl max b := by
  intro l
  induction l with
  | nil => intro b a ha; simp at ha
  | cons hd tl ih =>
    intro b a ha
    rcases List.mem_cons.mp ha with rfl | ha
    · exact Nat.le_trans (Nat.le_max_right b a) (base_le_foldl_max tl (max b a))
    · exact ih (max b hd) a ha

/-- When the maximum multiplicity of a character list is 1, every
character's count is at most 1. -/
theorem count_le_one_of_maxCount (xs : List Char) (h : maxCount xs = 1) (c : Char) :
    xs.count c ≤ 1 := by
  by_cases hc : c ∈ xs
  · have hmem : xs.count c ∈ xs.map fun d => xs.count d :=
      List.mem_map_of_mem _ hc
    have hle := mem_le_foldl_max (xs.map fun d => xs.count d) 0 _ hmem
    unfold maxCount at h
    rw [h] at hle
    exact hle
  · simp [List.count_eq_zero.mpr hc]

theorem exclusive_count (l r : Word) (h : exclusiveWords l r = true) (c : Char) :
    (l ++ r).count c ≤ 1 := by
  refine count_le_one_of_maxCount _ ?_ c
  simpa [exclusiveWords] using h

/-- The invariant of the exclusivity index: every key extended by any of
its candidate values concatenates into a duplicate-free tuple. -/
def GoodIdx (idx : List (List Word × List Word)) : Prop :=
  ∀ kv ∈ idx, ∀ v ∈ kv.2, ∀ c : Char, ((kv.1 ++ [v]).flatten).count c ≤ 1

theorem get_index_good (ws : List Word) : GoodIdx (get_index ws) := by
  induction ws with
  | nil => intro kv hkv; simp [get_index] at hkv
  | cons w rest ih =>
    intro kv hkv v hv c
    simp only [get_index] at hkv
    rcases List.mem_append.mp hkv with hkv | hkv
    · have hkv' : kv = ([w], rest.filter fun r => exclusiveWords w r) := by
        by_cases he : (rest.filter fun r => exclusiveWords w r).isEmpty
        · simp [he] at hkv
        · simp [he] at hkv
          exact hkv
      subst hkv'
      have hex : exclusiveWords w v = true := (List.mem_filter.mp hv).2
      simpa using exclusive_count w v hex c
    · exact ih kv hkv v hv c

theorem extend_group_shape (key : List Word) :
    ∀ (values : List Word) (kv : List Word × List Word),
      kv ∈ extend_group key values →
      ∃ left, kv.1 = key ++ [left] ∧ left ∈ values ∧
        ∀ r ∈ kv.2, r ∈ values ∧ exclusiveWords left r = true := by
  intro values
  induction values with
  | nil => intro kv hkv; simp [extend_group] at hkv
  | cons v rest ih =>
    intro kv hkv
    simp only [extend_group] at hkv
    rcases List.mem_append.mp hkv with hkv | hkv
    · have hkv' : kv = (key ++ [v], rest.filter fun r => exclusiveWords v r) := by
        by_cases he : (rest.filter fun r => exclusiveWords v r).isEmpty
        · simp [he] at hkv
        · simp [he] at hkv
          exact hkv
      subst hkv'
      refine ⟨v, rfl, List.mem_cons_self v rest, ?_⟩
      intro r hr
      have := List.mem_filter.mp hr
      exact ⟨List.mem_cons_of_mem v this.1, this.2⟩
    · obtain ⟨left, h1, h2, h3⟩ := ih kv hkv
      exact ⟨left, h1, List.mem_cons_of_mem v h2,
        fun r hr => ⟨List.mem_cons_of_mem v (h3 r hr).1, (h3 r hr).2⟩⟩

theorem deepen_index_good (idx : List (List Word × List Word)) (h : GoodIdx idx) :
    GoodIdx (deepen_index idx) := by
  intro kv hkv v hv c
  simp only [deepen_index] at hkv
  rw [List.mem_flatMap] at hkv
  obtain ⟨kv0, hkv0, hmem⟩ := hkv
  obtain ⟨left, hkey, hleft, hvals⟩ := extend_group_shape kv0.1 kv0.2 kv hmem
  obtain ⟨hvmem, hexcl⟩ := hvals v hv
  have h1 := h kv0 hkv0 left hleft c
  have h2 := h kv0 hkv0 v hvmem c
  have h3 := exclusive_count left v hexcl c
  rw [hkey]
  simp only [List.flatten_append, List.count_append, List.flatten_cons,
    List.flatten_nil, List.append_nil] at h1 h2 ⊢
  simp only [List.count_append] at h3 ⊢
  omega

theorem iterate_deepen_good (n : Nat) (idx : List (List Word × List Word))
    (h : GoodIdx idx) : GoodIdx (Nat.iterate deepen_index n idx) := by
  induction n generalizing idx with
  | zero => exact h
  | succ m ih =>
    rw [Function.iterate_succ_apply]
    exact ih _ (deepen_index_good idx h)

/-- Claim C5 (amended to `k ≥ 2`): every tuple yielded by unwinding the
pair index deepened `k - 2` times is exclusive — no character occurs more
than once in the concatenation of its words. -/
theorem c5_tuples_exclusive (ws : List Word) (k : Nat) (hk : 2 ≤ k)
    (t : List Word) (ht : t ∈ iter_k_tuples ws k) (c : Char) :
    (t.flatten).count c ≤ 1 := by
  unfold iter_k_tuples at ht
  rw [if_neg (by omega)] at ht
  rw [List.mem_flatMap] at ht
  obtain ⟨kv, hkv, hmem⟩ := ht
  rw [List.mem_map] at hmem
  obtain ⟨v, hv, rfl⟩ := hmem
  exact iterate_deepen_good (k - 2) (get_index ws) (get_index_good ws) kv hkv v hv c

/-- Witness for C5 at a concrete input: the pair `("ab", "cd")`. -/
theorem c5_tuples_exclusive_witness :
    2 ≤ 2 ∧ [['a','b'], ['c','d']] ∈ iter_k_tuples [['a','b'], ['c','d']] 2 ∧
    (([['a','b'], ['c','d']] : List Word).flatten).count 'a' ≤ 1 :=
  ⟨by decide, by decide,
    c5_tuples_exclusive [['a','b'], ['c','d']] 2 (by decide)
      [['a','b'], ['c','d']] (by decide) 'a'⟩

/-- Counterexample to C5 as stated (`k ≥ 1`): for `k = 1` the code yields
every vocabulary word as a singleton tuple, including words with repeated
letters, whose concatenation has a character count above 1. -/
theorem c5_singleton_not_exclusive :
    [['h','e','l','l','o']] ∈ iter_k_tuples [['h','e','l','l','o']] 1 ∧
    (([['h','e','l','l','o']] : List Word).flatten).count 'l' = 2 := by
  refine ⟨by decide, by decide⟩

theorem state_none_lt (g : Game) (h : g.state = none) :
    g.guesses.length < g.configuration.height := by
  unfold Game.state at h
  by_cases hge : g.configuration.height ≤ g.guesses.length
  · rw [if_pos hge] at h; simp at h
  · omega

theorem state_ne_none_of_ge (g : Game)
    (h : g.configuration.height ≤ g.guesses.length) : g.state ≠ none := by
  unfold Game.state
  rw [if_pos h]
  simp

theorem append_guess_ok_shape (g : Game) (w : Word) (g' : Game)
    (h : g.append_guess w = .ok g') :
    g'.configuration = g.configuration ∧
    g'.guesses.length = g.guesses.length + 1 ∧ g'.word = g.word := by
  unfold Game.append_guess at h
  split_ifs at h
  cases h
  simp

theorem play_fuel_spec :
    ∀ (fuel : Nat) (p : Player) (g g' : Game),
      play_fuel fuel p g = .ok g' →
      g'.configuration = g.configuration ∧
      g'.guesses.length ≤ max g.guesses.length g.configuration.height ∧
      (g.configuration.height ≤ g.guesses.length + fuel → g'.state ≠ none) := by
  intro fuel
  induction fuel with
  | zero =>
    intro p g g' h
    cases h
    exact ⟨rfl, Nat.le_max_left _ _, fun hge => state_ne_none_of_ge _ hge⟩
  | succ m ih =>
    intro p g g' h
    rw [play_fuel] at h
    by_cases hst : g.state = none
    · rw [if_pos hst] at h
      cases hok : g.append_guess (p g.guesses g.calls) with
      | error e => rw [hok] at h; cases h
      | ok g1 =>
        rw [hok] at h
        obtain ⟨hcfg1, hlen1, _⟩ := append_guess_ok_shape _ _ _ hok
        obtain ⟨hcfg, hlen, hstate⟩ := ih p g1 g' h
        have hlt := state_none_lt g hst
        have hh : g1.configuration.height = g.configuration.height := by rw [hcfg1]
        have hmax : max g1.guesses.length g1.configuration.height =
            g.configuration.height := by
          rw [hlen1, hh]
          exact Nat.max_eq_right (by omega)
        rw [hmax] at hlen
        refine ⟨hcfg.trans hcfg1, ?_, fun hge => hstate ?_⟩
        · exact Nat.le_trans hlen (Nat.le_max_right _ _)
        · rw [hlen1, hh]
          omega
    · rw [if_neg hst] at h
      cases h
      exact ⟨rfl, Nat.le_max_left _ _, fun _ => hst⟩

/-- Claim C6: a game played from scratch with `height` fuel — enough for
the source's loop, which only iterates while `state()` is `None` — ends
with at most `height` guesses and a decided state: once the guess count
reaches `height`, `state()` is no longer `None`, so the loop exits. -/
theorem c6_play_terminates_within_height (p : Player) (g g' : Game)
    (hfresh : g.guesses = [])
    (h : play_fuel g.configuration.height p g = .ok g') :
    g'.guesses.length ≤ g.configuration.height ∧ g'.state ≠ none := by
  obtain ⟨_, hlen, hstate⟩ := play_fuel_spec _ p g g' h
  rw [hfresh] at hlen hstate
  simp only [List.length_nil, Nat.zero_max] at hlen
  exact ⟨hlen, hstate (by omega)⟩

/-- A one-word vocabulary with height 2, and the player that always
guesses `"a"`. -/
def cfgW : Configuration := ⟨1, 2, [['a']]⟩

/-- The fresh game on `cfgW` with secret `"a"`. -/
def gameW0 : Game := ⟨cfgW, ['a'], [], []⟩

/-- `gameW0` after one (winning) guess. -/
def gameW1 : Game := ⟨cfgW, ['a'], [['a']], [[Call.correct]]⟩

/-- The always-`"a"` player. -/
def playerA : Player := fun _ _ => ['a']

/-- Witness for C6 at a concrete input. -/
theorem c6_play_terminates_within_height_witness :
    gameW0.guesses = [] ∧
    play_fuel gameW0.configuration.height playerA gameW0 = .ok gameW1 ∧
    (gameW1.guesses.length ≤ gameW0.configuration.height ∧ gameW1.state ≠ none) :=
  ⟨rfl, rfl, c6_play_terminates_within_height playerA gameW0 gameW1 rfl rfl⟩

theorem num_sum_cons (q : CKey × Nat) (rest : List (CKey × Nat)) :
    num_sum (q :: rest) = ckey_val q.1 q.2 + num_sum rest := by
  simp [num_sum]

theorem tot_sum_cons (q : CKey × Nat) (rest : List (CKey × Nat)) :
    tot_sum (q :: rest) = q.2 + tot_sum rest := by
  simp [tot_sum]

theorem num_sum_incr_num :
    ∀ (ctr : List (CKey × Nat)) (n : Nat),
      num_sum (counter_incr ctr (.num n)) = num_sum ctr + (n : ℚ) := by
  intro ctr
  induction ctr with
  | nil =>
    intro n
    rw [show counter_incr [] (CKey.num n) = [(CKey.num n, 1)] from rfl,
      num_sum_cons]
    simp [num_sum, ckey_val]
  | cons p rest ih =>
    intro n
    by_cases hp : p.1 = CKey.num n
    · simp only [counter_incr, if_pos hp]
      rw [num_sum_cons, num_sum_cons, hp]
      simp only [ckey_val]
      push_cast
      ring
    · simp only [counter_incr, if_neg hp]
      rw [num_sum_cons, num_sum_cons, ih n]
      ring

theorem num_sum_incr_failure :
    ∀ (ctr : List (CKey × Nat)),
      num_sum (counter_incr ctr .failure) = num_sum ctr := by
  intro ctr
  induction ctr with
  | nil =>
    rw [show counter_incr [] CKey.failure = [(CKey.failure, 1)] from rfl,
      num_sum_cons]
    simp [num_sum, ckey_val]
  | cons p rest ih =>
    by_cases hp : p.1 = CKey.failure
    · simp only [counter_incr, if_pos hp]
      rw [num_sum_cons, num_sum_cons, hp]
      simp only [ckey_val]
    · simp only [counter_incr, if_neg hp]
      rw [num_sum_cons, num_sum_cons, ih]

theorem tot_sum_incr :
    ∀ (ctr : List (CKey × Nat)) (k : CKey),
      tot_sum (counter_incr ctr k) = tot_sum ctr + 1 := by
  intro ctr
  induction ctr with
  | nil => intro k; simp [counter_incr, tot_sum]
  | cons p rest ih =>
    intro k
    by_cases hp : p.1 = k
    · simp only [counter_incr, if_pos hp]
      rw [tot_sum_cons, tot_sum_cons]
      omega
    · simp only [counter_incr, if_neg hp]
      rw [tot_sum_cons, tot_sum_cons, ih k]
      omega

theorem play_all_go_spec (cfg : Configuration) (p : Player) :
    ∀ (ws : List Word) (ctr ctr' : List (CKey × Nat)),
      play_all_go cfg p ws ctr = .ok ctr' →
      num_sum ctr' =
        num_sum ctr + ((ws.map fun w => ((game_score cfg p w : Nat) : ℚ)).sum) ∧
      tot_sum ctr' = tot_sum ctr + ws.length := by
  intro ws
  induction ws with
  | nil =>
    intro ctr ctr' h
    cases h
    simp
  | cons w ws ih =>
    intro ctr ctr' h
    rw [play_all_go] at h
    cases hplay : play_fuel cfg.height p ⟨cfg, w, [], []⟩ with
    | error e => rw [hplay] at h; cases h
    | ok g =>
      rw [hplay] at h
      obtain ⟨h1, h2⟩ := ih _ _ h
      have hscore : game_score cfg p w =
          if g.state = some true then g.guesses.length else 0 := by
        unfold game_score
        rw [hplay]
      constructor
      · rw [h1, List.map_cons, List.sum_cons, hscore]
        unfold tally_key
        by_cases hwin : g.state = some true
        · rw [if_pos hwin, if_pos hwin, num_sum_incr_num]
          ring
        · rw [if_neg hwin, if_neg hwin, num_sum_incr_failure]
          simp
      · rw [h2, tot_sum_incr]
        simp only [List.length_cons]
        omega

/-- Claim C9: when the full sweep succeeds, `speed` equals the sum of
guess counts over games tallied as won divided by the corpus size, games
tallied as `"Failure"` contribute nothing to the numerator, and the
counter holds exactly one tally per corpus word. -/
theorem c9_speed_formula (cfg : Configuration) (p : Player)
    (ctr : List (CKey × Nat)) (h : play_all cfg p = .ok ctr) :
    cfg.speed ctr =
      ((cfg.allowed.map fun w => ((game_score cfg p w : Nat) : ℚ)).sum) /
        (cfg.allowed.length : ℚ) ∧
    tot_sum ctr = cfg.allowed.length := by
  obtain ⟨h1, h2⟩ := play_all_go_spec cfg p cfg.allowed [] ctr h
  have hz : num_sum ([] : List (CKey × Nat)) = 0 := rfl
  have hz2 : tot_sum ([] : List (CKey × Nat)) = 0 := rfl
  rw [hz, zero_add] at h1
  rw [hz2, Nat.zero_add] at h2
  refine ⟨?_, h2⟩
  unfold Configuration.speed
  rw [show (ctr.map fun q => ckey_val q.1 q.2).sum = num_sum ctr from rfl, h1]

/-- Witness for C9 at a concrete input: the one-word corpus of `cfgW`
with the always-`"a"` player, won in one guess. -/
theorem c9_speed_formula_witness :
    play_all cfgW playerA = .ok [(CKey.num 1, 1)] ∧
    (cfgW.speed [(CKey.num 1, 1)] =
      ((cfgW.allowed.map fun w => ((game_score cfgW playerA w : Nat) : ℚ)).sum) /
        (cfgW.allowed.length : ℚ) ∧
    tot_sum [(CKey.num 1, 1)] = cfgW.allowed.length) :=
  ⟨rfl, c9_speed_formula cfgW playerA [(CKey.num 1, 1)] rfl⟩

theorem toFinset_sum_eq_dedup_sum (l : List Char) (f : Char → ℚ) :
    (∑ c ∈ l.toFinset, f c) = (l.dedup.map f).sum := by
  have hdedup : l.dedup.toFinset = l.toFinset := by
    apply Finset.ext
    intro a
    simp [List.mem_toFinset, List.mem_dedup]
  rw [← hdedup]
  exact List.sum_toFinset f (List.nodup_dedup l)

/-- Claim C8: the score of a word sequence is the sum, over the distinct
characters appearing anywhere in it (each exactly once), of the corpus
count of that character divided by the total character count; scoring a
duplicated sequence changes nothing, and the normalising total is the
total number of characters across the corpus. -/
theorem c8_score_words_distinct_chars (lang : Lang) (ws : List Word) :
    lang.score_words ws =
      (ws.flatten.dedup.map fun c =>
        ((lang.frequency c : ℚ) / (lang.total : ℚ))).sum ∧
    lang.score_words (ws ++ ws) = lang.score_words ws ∧
    lang.total = lang.words.flatten.length := by
  refine ⟨?_, ?_, ?_⟩
  · unfold Lang.score_words Lang.frequency_norm
    exact toFinset_sum_eq_dedup_sum ws.flatten _
  · unfold Lang.score_words
    rw [List.flatten_append, List.toFinset_append, Finset.union_self]
  · unfold Lang.total Lang.frequency
    have h := Multiset.toFinset_sum_count_eq (lang.words.flatten : Multiset Char)
    simp only [Multiset.coe_count, Multiset.coe_card] at h
    rw [← h]
    rfl

